import Mathlib

/-!
Verification of the enum reflection utilities in `yoga/enums/YogaEnums.h`.

The header defines, twice (a primary C++20-concepts variant and a C++17
enable-if shim selected by `APPLY_FIXES_FOR_CPP17`):
  * `ordinalCount<EnumT>()` — an extension point each sequential enum
    specializes with its member count;
  * `HasOrdinality<EnumT>` — the capability predicate
    `ordinalCount<EnumT>() > 0`;
  * `bitCount<EnumT>()` — `std::bit_width(ordinalCount - 1)` (the shim uses
    a hand-written `cpp17_bit_width`);
  * `to_underlying(e)` — cast of an enum value to its underlying type;
  * `ordinals<EnumT>()` — a range over ordinals `0 .. ordinalCount - 1`.

We embed these shallowly: an enum value is its underlying integral value, a
template instantiation context is an `EnumFamily` record, and "does not
compile" is modelled as `none`.
-/

namespace Yoga

/-- An enumeration value, represented by its underlying integral value
(a sequential Yoga enum is in bijection with ordinals of its underlying
type). -/
structure EnumVal where
  val : Int
deriving DecidableEq

/-- Model of a C++ enum type parameter `EnumT` as the templates in
`YogaEnums.h` see it: whether `EnumT` is an enumeration type
(`std::is_enum_v<EnumT>`), and the `ordinalCount<EnumT>` specialization the
consumer provided, if any (`none` = no specialization, so any use of the
extension point fails to compile). -/
structure EnumFamily where
  isEnum : Bool
  spec : Option Int

/-! ## Primary variant (C++20 concepts) -/

/-- `concept Enumeration = std::is_enum_v<EnumT>`. -/
def Enumeration (f : EnumFamily) : Bool := f.isEnum

/-- `ordinalCount<EnumT>()`, constrained to `Enumeration`; it has no
default definition, so a call for a type without a specialization does not
compile (`none`). -/
def ordinalCount (f : EnumFamily) : Option Int :=
  if Enumeration f then f.spec else none

/-- `concept HasOrdinality = (ordinalCount<EnumT>() > 0)`; when the
extension point is unusable for the type the constraint cannot be
satisfied. -/
def HasOrdinality (f : EnumFamily) : Bool :=
  match ordinalCount f with
  | some n => decide (0 < n)
  | none => false

/-- Semantics of C++ `std::bit_width` on a nonnegative value: `0` for `0`,
otherwise `floor(log2 x) + 1`. -/
def std_bit_width (x : Nat) : Nat :=
  if x = 0 then 0 else Nat.log2 x + 1

/-- `bitCount<EnumT>()`, constrained by `HasOrdinality`:
`std::bit_width(static_cast<underlying>(ordinalCount<EnumT>() - 1))`.
Under the constraint the count is positive, so the cast value is
nonnegative. -/
def bitCount (f : EnumFamily) : Option Nat :=
  if HasOrdinality f then
    match ordinalCount f with
    | some n => some (std_bit_width (n - 1).toNat)
    | none => none
  else none

/-- `to_underlying(e)`:
`static_cast<std::underlying_type_t<decltype(e)>>(e)`. -/
def to_underlying (e : EnumVal) : Int := e.val

/-- `static_cast<EnumT>(x)` from an underlying value back to the enum. -/
def castToEnum (x : Int) : EnumVal := ⟨x⟩

/-- The local `struct Iterator` of `ordinals()`: a single member `e`. -/
structure Iterator where
  e : EnumVal

/-- `Iterator{}`: the value-initialized member `e{}` holds ordinal `0`. -/
def Iterator.init : Iterator := ⟨⟨0⟩⟩

/-- `operator*`: returns `e`. -/
def Iterator.deref (it : Iterator) : EnumVal := it.e

/-- `operator++`: `e = static_cast<EnumT>(to_underlying(e) + 1)`. -/
def Iterator.inc (it : Iterator) : Iterator :=
  ⟨castToEnum (to_underlying it.e + 1)⟩

/-- Defaulted `operator==`: memberwise comparison of the single member `e`
(an enum compares by its underlying value). -/
def Iterator.beq (a b : Iterator) : Bool := a.e.val == b.e.val

/-- Defaulted `operator!=`: negation of the defaulted `operator==`. -/
def Iterator.bne (a b : Iterator) : Bool := !(a.e.val == b.e.val)

/-- `operator++` applied `k` times, for reasoning about consuming an
iterator. -/
def Iterator.advance (it : Iterator) (k : Nat) : Iterator :=
  Iterator.inc^[k] it

/-- The local `struct Range` of `ordinals<EnumT>()`; it is stateless in the
source, its `end()` reads `ordinalCount<EnumT>()`, recorded here as
`count`. -/
structure Range where
  count : Int

/-- `Range::begin()`: `Iterator{}`. -/
def Range.beginIt (_ : Range) : Iterator := Iterator.init

/-- `Range::end()`: `Iterator{static_cast<EnumT>(ordinalCount<EnumT>())}`. -/
def Range.endIt (r : Range) : Iterator := ⟨castToEnum r.count⟩

/-- `ordinals<EnumT>()`, constrained by `HasOrdinality`: returns `Range{}`. -/
def ordinals (f : EnumFamily) : Option Range :=
  if HasOrdinality f then
    match ordinalCount f with
    | some n => some ⟨n⟩
    | none => none
  else none

/-- A range-based for loop over the iterators: starting at `it`, dereference
and increment until the position equals `stop`. The C++ loop tests
`it != stop`; every state reachable from `begin()` (ordinal `0`, with
`stop` holding the nonnegative count) satisfies `it ≤ stop`, where that
test coincides with `<`, which also bounds the recursion. -/
def travFrom (it stop : Iterator) : List EnumVal :=
  if it.e.val < stop.e.val then it.deref :: travFrom it.inc stop else []
termination_by (stop.e.val - it.e.val).toNat
decreasing_by
  simp only [Iterator.inc, castToEnum, to_underlying]
  omega

/-- The sequence produced by iterating a `Range` from `begin()` to
`end()`. -/
def Range.seq (r : Range) : List EnumVal :=
  travFrom r.beginIt r.endIt

/-- The sequence produced by `for (auto e : ordinals<EnumT>())`. -/
def ordinalsSeq (f : EnumFamily) : Option (List EnumVal) :=
  (ordinals f).map Range.seq

/-! ## Compatibility shim (`APPLY_FIXES_FOR_CPP17`) -/

/-- `constexpr bool IsEnumeration = std::is_enum_v<EnumT>`. -/
def IsEnumeration (f : EnumFamily) : Bool := f.isEnum

/-- Shim `ordinalCount<EnumT>()`: enable-if constrained to `IsEnumeration`,
declared `= delete`, so a call without a specialization does not compile. -/
def ordinalCount_cpp17 (f : EnumFamily) : Option Int :=
  if IsEnumeration f then f.spec else none

/-- Shim `HasOrdinality<EnumT>`:
`std::integral_constant<bool, (ordinalCount<EnumT>() > 0)>::value`. -/
def HasOrdinality_cpp17 (f : EnumFamily) : Bool :=
  match ordinalCount_cpp17 f with
  | some n => decide (0 < n)
  | none => false

/-- The `while (x) { width++; x >>= 1; }` loop of `cpp17_bit_width` on a
nonnegative operand: the final `width` is the number of iterations. -/
def shiftCountLoop (x : Nat) : Nat :=
  if x = 0 then 0 else shiftCountLoop (x / 2) + 1
termination_by x
decreasing_by omega

/-- `cpp17_bit_width(x)` when `is_constant_evaluated()` holds (the MSVC and
GCC compile-time branches are the same loop), for nonnegative `x`. -/
def cpp17_bit_width_constexpr (x : Nat) : Nat :=
  if x = 0 then 0 else shiftCountLoop x

/-- `__builtin_clz` on a 32-bit operand (only defined for `x ≠ 0`): the
number of leading zero bits, `32 - (floor(log2 x) + 1)`. -/
def builtin_clz32 (x : Nat) : Nat := 32 - (Nat.log2 x + 1)

/-- `cpp17_bit_width(x)` at run time under `__GNUC__`: after the initial
`if (x == 0) return 0;` guard, `return x == 0 ? 0 : __builtin_clz(x);`. -/
def cpp17_bit_width_runtime_gnu (x : Nat) : Nat :=
  if x = 0 then 0 else if x = 0 then 0 else builtin_clz32 x

/-- `_BitScanReverse` result `index` (only for `x ≠ 0`): the position of
the highest set bit, `floor(log2 x)`. -/
def bitScanReverse (x : Nat) : Nat := Nat.log2 x

/-- `cpp17_bit_width(x)` at run time under `_MSC_VER`: after the zero
guard, `_BitScanReverse(&index, x); return index + 1;`. -/
def cpp17_bit_width_runtime_msvc (x : Nat) : Nat :=
  if x = 0 then 0 else bitScanReverse x + 1

/-- Shim `bitCount<EnumT>()` (enable-if constrained by `HasOrdinality`),
with `cpp17_bit_width` evaluated at compile time, as in a constant
expression. -/
def bitCount_cpp17 (f : EnumFamily) : Option Nat :=
  if HasOrdinality_cpp17 f then
    match ordinalCount_cpp17 f with
    | some n => some (cpp17_bit_width_constexpr (n - 1).toNat)
    | none => none
  else none

/-- Shim `bitCount<EnumT>()` with `cpp17_bit_width` evaluated at run time
under `__GNUC__`. -/
def bitCount_cpp17_runtime_gnu (f : EnumFamily) : Option Nat :=
  if HasOrdinality_cpp17 f then
    match ordinalCount_cpp17 f with
    | some n => some (cpp17_bit_width_runtime_gnu (n - 1).toNat)
    | none => none
  else none

/-- Shim `to_underlying(e)`: same cast as the primary. -/
def to_underlying_cpp17 (e : EnumVal) : Int := e.val

/-- Shim `Iterator::operator==`: explicit `return e == other.e;`. -/
def Iterator.beq_cpp17 (a b : Iterator) : Bool := a.e.val == b.e.val

/-- Shim `Iterator::operator!=`: explicit `return e != other.e;`. -/
def Iterator.bne_cpp17 (a b : Iterator) : Bool := a.e.val != b.e.val

/-- Shim `ordinals<EnumT>()`: its enable-if constraint is only
`IsEnumeration` (line 173), not `HasOrdinality`; the body is the same.
Without a specialization, instantiating `Range::end()` uses the deleted
`ordinalCount` and does not compile (`none`). -/
def ordinals_cpp17 (f : EnumFamily) : Option Range :=
  if IsEnumeration f then
    match ordinalCount_cpp17 f with
    | some n => some ⟨n⟩
    | none => none
  else none

/-- The sequence produced by `for (auto e : ordinals<EnumT>())` in the
shim. -/
def ordinalsSeq_cpp17 (f : EnumFamily) : Option (List EnumVal) :=
  (ordinals_cpp17 f).map Range.seq

/-- The `while (x) { width++; x >>= 1; }` loop of `cpp17_bit_width` on a
signed operand `x` of either sign, with explicit fuel; `x >>= 1` is an
arithmetic right shift. `some w` means the loop exits with `width = w`
within `fuel` iterations; `none` means it did not exit. -/
def ctLoopFuel : Nat → Int → Nat → Option Nat
  | 0, _, _ => none
  | fuel + 1, x, width =>
    if x = 0 then some width else ctLoopFuel fuel (Int.shiftRight x 1) (width + 1)

/-! ## Helper lemmas -/

/-- The shift-and-count loop computes exactly the `std::bit_width` of a
nonnegative operand. -/
theorem shiftCountLoop_eq (x : Nat) : shiftCountLoop x = std_bit_width x := by
  induction x using Nat.strong_induction_on with
  | _ x ih =>
    rw [shiftCountLoop]
    by_cases hx : x = 0
    · simp [hx, std_bit_width]
    · simp only [hx, if_false]
      rw [ih (x / 2) (by omega)]
      by_cases h1 : x = 1
      · simp [h1, std_bit_width, Nat.log2]
      · have h2 : 2 ≤ x := by omega
        have hx2 : ¬ (x / 2 = 0) := by omega
        simp only [std_bit_width, hx2, if_false, hx]
        conv_rhs => rw [Nat.log2]
        simp [h2]

theorem cpp17_bit_width_constexpr_eq (x : Nat) :
    cpp17_bit_width_constexpr x = std_bit_width x := by
  by_cases hx : x = 0
  · simp [hx, cpp17_bit_width_constexpr, std_bit_width]
  · simp [cpp17_bit_width_constexpr, hx, shiftCountLoop_eq]

/-- `std::bit_width (n - 1)` is the ceiling of `log2 n` for `n ≥ 1`. -/
theorem std_bit_width_sub_one_eq_clog (n : Nat) (h : 1 ≤ n) :
    std_bit_width (n - 1) = Nat.clog 2 n := by
  rcases n with _ | m
  · omega
  · by_cases hm : m = 0
    · simp [hm, std_bit_width, Nat.clog_one_right]
    · simp only [std_bit_width, Nat.add_sub_cancel, hm, if_false, Nat.log2_eq_log_two]
      apply le_antisymm
      · have h3 : 2 ^ Nat.log 2 m < m + 1 := by
          have := Nat.pow_log_le_self 2 hm
          omega
        have h4 := (Nat.pow_lt_iff_lt_clog (b := 2) (by norm_num)).mp h3
        omega
      · have h5 : m + 1 ≤ 2 ^ (Nat.log 2 m + 1) := by
          have h6 := Nat.lt_pow_succ_log_self (b := 2) (by norm_num) m
          simp only [Nat.succ_eq_add_one] at h6
          omega
        have h7 := (Nat.le_pow_iff_clog_le (b := 2) (by norm_num)).mp h5
        omega

/-- Traversal from ordinal `c` up to ordinal `c + k` yields the `k`
consecutive ordinals starting at `c`. -/
theorem travFrom_eq (k : Nat) (c : Int) :
    travFrom ⟨⟨c⟩⟩ ⟨⟨c + k⟩⟩ =
      (List.range k).map (fun i : Nat => EnumVal.mk (c + (i : Int))) := by
  induction k generalizing c with
  | zero =>
    rw [travFrom]
    simp
  | succ k ih =>
    rw [travFrom]
    have hlt : c < c + (k + 1 : Nat) := by
      push_cast
      omega
    simp only [hlt, if_true, Iterator.deref, Iterator.inc, to_underlying, castToEnum]
    have harg : c + ((k : Nat) + 1 : Nat) = (c + 1) + (k : Nat) := by
      push_cast
      ring
    rw [harg, ih (c + 1)]
    rw [List.range_succ_eq_map]
    simp only [List.map_cons, List.map_map]
    refine List.cons_eq_cons.mpr ⟨by simp, ?_⟩
    apply List.map_congr_left
    intro i _
    simp only [Function.comp_apply, EnumVal.mk.injEq, Nat.succ_eq_add_one]
    push_cast
    ring

/-- The sequence of a `Range` with nonnegative count `n` is
`[0, 1, …, n-1]`. -/
theorem Range.seq_eq (n : Nat) :
    (Range.mk (n : Int)).seq =
      (List.range n).map (fun i : Nat => EnumVal.mk (i : Int)) := by
  have h := travFrom_eq n 0
  simp only [zero_add] at h
  rw [Range.seq]
  simp only [Range.beginIt, Range.endIt, Iterator.init, castToEnum]
  exact h

/-- `HasOrdinality` holds for a genuine enum family declaring count `n ≥ 1`. -/
theorem hasOrdinality_of_pos (n : Nat) (h : 1 ≤ n) :
    HasOrdinality ⟨true, some (n : Int)⟩ = true := by
  simp only [HasOrdinality, ordinalCount, Enumeration, if_true]
  simp only [decide_eq_true_eq]
  omega

/-- `bitCount` on a family with count `n ≥ 1` computes
`std::bit_width (n - 1)`. -/
theorem bitCount_eq (n : Nat) (h : 1 ≤ n) :
    bitCount ⟨true, some (n : Int)⟩ = some (std_bit_width (n - 1)) := by
  have hcast : ((n : Int) - 1).toNat = n - 1 := by omega
  rw [bitCount, hasOrdinality_of_pos n h]
  simp only [ordinalCount, Enumeration, if_true, hcast]

/-! ## Claim theorems -/

/-- C1: for every enumeration family with declared ordinal count `N ≥ 1`,
`bitCount()` returns the bit width of `M = N - 1` (`0` when `M = 0`, else
`floor(log2 M) + 1`), which equals `ceil(log2 N)` (`Nat.clog 2 N`) — in
particular `N = 1 ↦ 0`, `2 ↦ 1`, `3 ↦ 2`, `4 ↦ 2`, `5 ↦ 3`, `256 ↦ 8`,
`257 ↦ 9`. -/
theorem c1_bitCount_eq_ceil_log2 (n : Nat) (h : 1 ≤ n) :
    bitCount ⟨true, some (n : Int)⟩ = some (std_bit_width (n - 1)) ∧
    std_bit_width (n - 1) = Nat.clog 2 n :=
  ⟨bitCount_eq n h, std_bit_width_sub_one_eq_clog n h⟩

/-- C1 witness at the boundary count N = 257: `bitCount` is the bit width
of 256, namely `ceil(log2 257) = 9`. -/
theorem c1_witness :
    (bitCount ⟨true, some (257 : Int)⟩ = some (std_bit_width (257 - 1)) ∧
      std_bit_width (257 - 1) = Nat.clog 2 257) ∧
    std_bit_width (257 - 1) = 9 :=
  ⟨c1_bitCount_eq_ceil_log2 257 (by norm_num),
   by simp [std_bit_width, Nat.log2]⟩

/-- C2: at operand `x = 1` (ordinal count `N = 2`) the shim's compile-time
shift-and-count branch returns `1`, agreeing with `std::bit_width` and with
the MSVC run-time branch, but the GCC run-time branch returns
`__builtin_clz(1) = 31`: the shim's two branches do not agree, against the
claim (and against the function's own comment "equivalent to
std::bit_width" — the `32 -` is missing before `__builtin_clz`). -/
theorem c2_gnu_runtime_branch_disagrees :
    cpp17_bit_width_constexpr 1 = 1 ∧
    cpp17_bit_width_runtime_msvc 1 = 1 ∧
    std_bit_width 1 = 1 ∧
    cpp17_bit_width_runtime_gnu 1 = 31 := by
  refine ⟨?_, ?_, ?_, ?_⟩ <;>
    simp [cpp17_bit_width_constexpr, shiftCountLoop, cpp17_bit_width_runtime_msvc,
      bitScanReverse, std_bit_width, cpp17_bit_width_runtime_gnu, builtin_clz32, Nat.log2]

/-- C4: `HasOrdinality` holds exactly when the ordinal-count extension
point is usable for the type and returns a strictly positive value, and is
false otherwise; the shim's predicate agrees with the primary's. -/
theorem c4_hasOrdinality_iff (f : EnumFamily) :
    (HasOrdinality f = true ↔ ∃ n : Int, ordinalCount f = some n ∧ 0 < n) ∧
    HasOrdinality_cpp17 f = HasOrdinality f := by
  obtain ⟨e, s⟩ := f
  cases e <;> cases s <;>
    simp [HasOrdinality, HasOrdinality_cpp17, ordinalCount, ordinalCount_cpp17,
      Enumeration, IsEnumeration]

/-- C6: equality of two position markers compares exactly their underlying
ordinal values — `==` holds iff the ordinals are equal, equivalently (the
ordinal being the only member) iff the iterators are equal; `!=` is the
negation of `==`; and the shim's explicit operators coincide with the
primary's defaulted ones. -/
theorem c6_iterator_equality (a b : Iterator) :
    (Iterator.beq a b = true ↔ a.e.val = b.e.val) ∧
    (Iterator.beq a b = true ↔ a = b) ∧
    Iterator.bne a b = !(Iterator.beq a b) ∧
    Iterator.beq_cpp17 a b = Iterator.beq a b ∧
    Iterator.bne_cpp17 a b = Iterator.bne a b := by
  obtain ⟨⟨x⟩⟩ := a
  obtain ⟨⟨y⟩⟩ := b
  simp [Iterator.beq, Iterator.bne, Iterator.beq_cpp17, Iterator.bne_cpp17, bne]

/-- C9: `to_underlying` returns the underlying integral value of an enum
value; casting the result back yields the original value (round-trip
identity in both directions), and the shim's `to_underlying` is the
identical pure function. -/
theorem c9_to_underlying_round_trip (e : EnumVal) :
    to_underlying e = e.val ∧
    castToEnum (to_underlying e) = e ∧
    to_underlying_cpp17 e = to_underlying e ∧
    ∀ x : Int, to_underlying (castToEnum x) = x := by
  obtain ⟨v⟩ := e
  simp [to_underlying, to_underlying_cpp17, castToEnum]

/-- With negative operand the arithmetic shift stays negative, so the loop
never reaches zero whatever the fuel. -/
theorem ctLoopFuel_neg (fuel : Nat) :
    ∀ (x : Int) (w : Nat), x < 0 → ctLoopFuel fuel x w = none := by
  induction fuel with
  | zero => intro x w _; rfl
  | succ fuel ih =>
    intro x w hx
    have hx0 : ¬ (x = 0) := by omega
    simp only [ctLoopFuel, hx0, if_false]
    apply ih
    cases x with
    | ofNat m =>
      have h2 : (0 : Int) ≤ Int.ofNat m := Int.ofNat_nonneg m
      omega
    | negSucc m =>
      have hsh : Int.shiftRight (Int.negSucc m) 1 = Int.negSucc (m >>> 1) := rfl
      rw [hsh]
      exact Int.negSucc_lt_zero _

/-- With nonnegative operand every shift halves the value, so fuel
`x.toNat + 1` suffices for the loop to exit. -/
theorem ctLoopFuel_nonneg_exits (n : Nat) :
    ∀ (x : Int), 0 ≤ x → x.toNat ≤ n → ∀ w : Nat,
      ∃ w2, ctLoopFuel (n + 1) x w = some w2 := by
  induction n with
  | zero =>
    intro x hx hle w
    have h0 : x = 0 := by omega
    exact ⟨w, by simp [h0, ctLoopFuel]⟩
  | succ n ih =>
    intro x hx hle w
    by_cases h0 : x = 0
    · exact ⟨w, by simp [h0, ctLoopFuel]⟩
    · simp only [ctLoopFuel, h0, if_false]
      cases x with
      | negSucc m => exact absurd hx (Int.negSucc_lt_zero m).not_le
      | ofNat m =>
        have hsh : Int.shiftRight (Int.ofNat m) 1 = ((m / 2 : Nat) : Int) := by
          have h1 : Int.shiftRight (Int.ofNat m) 1 = Int.ofNat (m >>> 1) := rfl
          rw [h1, Nat.shiftRight_eq_div_pow]
          simp
        rw [hsh]
        apply ih
        · exact Int.natCast_nonneg _
        · have hm : m ≠ 0 := fun hc => h0 (by rw [hc]; rfl)
          have hm2 : m ≤ n + 1 := hle
          simp only [Int.toNat_natCast]
          omega

/-- C10: the shim's compile-time shift-and-count loop terminates for every
nonnegative signed operand (fuel `x.toNat + 1` iterations suffices), and
for a negative operand the arithmetic right shift `x >>= 1` never reaches
zero, so the loop never exits, whatever bound on iterations is allowed. -/
theorem c10_ct_loop_termination :
    (∀ x : Int, 0 ≤ x → ∃ w, ctLoopFuel (x.toNat + 1) x 0 = some w) ∧
    (∀ x : Int, x < 0 → ∀ fuel : Nat, ctLoopFuel fuel x 0 = none) := by
  constructor
  · intro x hx
    exact ctLoopFuel_nonneg_exits x.toNat x hx le_rfl 0
  · intro x hx fuel
    exact ctLoopFuel_neg fuel x 0 hx

/-- C10 witness: the loop exits for operand 5 within 6 iterations and never
exits for operand -1, here within any 100-iteration bound. -/
theorem c10_witness :
    (∃ w, ctLoopFuel ((5 : Int).toNat + 1) 5 0 = some w) ∧
    ctLoopFuel 100 (-1) 0 = none :=
  ⟨c10_ct_loop_termination.1 5 (by norm_num),
   c10_ct_loop_termination.2 (-1) (by norm_num) 100⟩

/-- `ordinals` on a genuine enum family with count `n ≥ 1` yields the
range whose end marker holds `n`. -/
theorem ordinals_eq (n : Nat) (h : 1 ≤ n) :
    ordinals ⟨true, some (n : Int)⟩ = some (Range.mk (n : Int)) := by
  rw [ordinals, hasOrdinality_of_pos n h]
  simp [ordinalCount, Enumeration]

/-- Advancing an iterator `k` times adds `k` to the ordinal it holds. -/
theorem Iterator.advance_val (it : Iterator) (k : Nat) :
    (it.advance k).e.val = it.e.val + (k : Int) := by
  induction k with
  | zero => simp [Iterator.advance]
  | succ k ih =>
    have hstep : it.advance (k + 1) = (it.advance k).inc := by
      rw [Iterator.advance, Iterator.advance, Function.iterate_succ_apply']
    rw [hstep]
    simp only [Iterator.inc, castToEnum, to_underlying]
    omega

/-- C3: for a family with declared count `N ≥ 1`, iterating from the begin
marker until the end marker yields exactly the `N` ordinals
`0, 1, …, N-1`: `N` values, distinct, strictly ascending, starting at `0`
and ending at `N - 1`, while the end marker holds the one-past-last
ordinal `N`, which dereferencing never produces. -/
theorem c3_ordinals_sequence (n : Nat) (h : 1 ≤ n) :
    ordinals ⟨true, some (n : Int)⟩ = some (Range.mk (n : Int)) ∧
    (Range.mk (n : Int)).seq =
      (List.range n).map (fun i : Nat => EnumVal.mk (i : Int)) ∧
    (Range.mk (n : Int)).seq.length = n ∧
    (Range.mk (n : Int)).seq.Nodup ∧
    List.Chain' (fun a b : EnumVal => a.val < b.val) (Range.mk (n : Int)).seq ∧
    (Range.mk (n : Int)).seq.head? = some ⟨0⟩ ∧
    (Range.mk (n : Int)).seq.getLast? = some ⟨(n : Int) - 1⟩ ∧
    (Range.mk (n : Int)).endIt.deref = EnumVal.mk (n : Int) ∧
    EnumVal.mk (n : Int) ∉ (Range.mk (n : Int)).seq := by
  have hseq := Range.seq_eq n
  have hinj : Function.Injective (fun i : Nat => EnumVal.mk (i : Int)) := by
    intro a b hab
    simpa using hab
  refine ⟨ordinals_eq n h, hseq, ?_, ?_, ?_, ?_, ?_, rfl, ?_⟩
  · rw [hseq]
    simp
  · rw [hseq]
    exact (List.nodup_range n).map hinj
  · rw [hseq]
    apply List.Pairwise.chain'
    rw [List.pairwise_map]
    refine List.Pairwise.imp ?_ (List.pairwise_lt_range n)
    intro a b hab
    show (a : Int) < (b : Int)
    exact_mod_cast hab
  · rw [hseq]
    rcases n with _ | m
    · omega
    · rw [List.range_succ_eq_map]
      simp
  · rw [hseq]
    rcases n with _ | m
    · omega
    · rw [List.range_succ, List.map_append]
      simp only [List.map_cons, List.map_nil, List.getLast?_concat,
        Option.some.injEq, EnumVal.mk.injEq]
      push_cast
      ring
  · rw [hseq]
    intro hmem
    obtain ⟨i, hi, hie⟩ := List.mem_map.mp hmem
    have hin : i = n := by
      have := congrArg EnumVal.val hie
      simpa using this
    rw [List.mem_range] at hi
    omega

/-- C5: invoking the `ordinals()` factory twice yields two ranges with
identical sequences; a fresh range always restarts at ordinal `0`; and
consuming one range's iterator only computes new iterator values (`begin`
advanced `k` times holds ordinal `k`), the other range's sequence being
determined by the family alone, the same whatever was done with the first
range's iterators. -/
theorem c5_ordinals_restartable (n : Nat) (h : 1 ≤ n) (k : Nat)
    (r1 r2 : Range)
    (h1 : ordinals ⟨true, some (n : Int)⟩ = some r1)
    (h2 : ordinals ⟨true, some (n : Int)⟩ = some r2) :
    r1.seq = r2.seq ∧
    r2.beginIt.deref = ⟨0⟩ ∧
    (r1.beginIt.advance k).e.val = (k : Int) ∧
    r2.seq = (List.range n).map (fun i : Nat => EnumVal.mk (i : Int)) := by
  rw [ordinals_eq n h] at h1 h2
  obtain rfl : Range.mk (n : Int) = r1 := Option.some.inj h1
  obtain rfl : Range.mk (n : Int) = r2 := Option.some.inj h2
  refine ⟨rfl, rfl, ?_, Range.seq_eq n⟩
  have hadv := Iterator.advance_val (Range.mk (n : Int)).beginIt k
  simpa [Range.beginIt, Iterator.init] using hadv

/-- C7: the two variants are not behaviorally identical. For a family with
count 2, the primary `bitCount` yields 1 while the shim's `bitCount`
evaluated at run time under GCC yields 31 (the `clz` bug); and for a
malformed family with count 0 the primary rejects `ordinals` during
compilation while the shim — whose `ordinals` is constrained only by
`IsEnumeration`, not by `HasOrdinality` — instantiates it. -/
theorem c7_variants_not_identical :
    (bitCount ⟨true, some 2⟩ = some 1 ∧
      bitCount_cpp17_runtime_gnu ⟨true, some 2⟩ = some 31) ∧
    (ordinals ⟨true, some 0⟩ = none ∧
      ordinals_cpp17 ⟨true, some 0⟩ = some (Range.mk 0)) := by
  refine ⟨⟨?_, ?_⟩, ?_, ?_⟩ <;>
    simp [bitCount, bitCount_cpp17_runtime_gnu, ordinals, ordinals_cpp17,
      HasOrdinality, HasOrdinality_cpp17, ordinalCount, ordinalCount_cpp17,
      Enumeration, IsEnumeration, std_bit_width, cpp17_bit_width_runtime_gnu,
      builtin_clz32, Nat.log2]

/-- C8: for a family whose specialization returns the non-positive count 0
the capability predicate is false in both variants, `bitCount` is
uninstantiable in both, and the primary's `ordinals` is rejected — but the
shim's `ordinals`, gated only by the enumeration check, is instantiable
and traverses an empty sequence at run time, against the claim; the
missing-specialization and non-enumeration rejections do hold in both
variants. -/
theorem c8_shim_iteration_instantiable :
    (HasOrdinality ⟨true, some 0⟩ = false ∧
      HasOrdinality_cpp17 ⟨true, some 0⟩ = false ∧
      bitCount ⟨true, some 0⟩ = none ∧
      bitCount_cpp17 ⟨true, some 0⟩ = none ∧
      ordinals ⟨true, some 0⟩ = none) ∧
    (ordinals_cpp17 ⟨true, some 0⟩ = some (Range.mk 0) ∧
      ordinalsSeq_cpp17 ⟨true, some 0⟩ = some []) ∧
    (ordinalCount ⟨true, none⟩ = none ∧
      ordinalCount_cpp17 ⟨true, none⟩ = none ∧
      ordinalCount ⟨false, some 3⟩ = none ∧
      ordinalCount_cpp17 ⟨false, some 3⟩ = none) := by
  have h0 : (Range.mk ((0 : Nat) : Int)).seq = [] := by
    rw [Range.seq_eq 0]
    simp
  refine ⟨⟨?_, ?_, ?_, ?_, ?_⟩, ⟨?_, ?_⟩, ?_, ?_, ?_, ?_⟩ <;>
    simp [HasOrdinality, HasOrdinality_cpp17, bitCount, bitCount_cpp17,
      ordinals, ordinals_cpp17, ordinalsSeq_cpp17, ordinalCount,
      ordinalCount_cpp17, Enumeration, IsEnumeration]
  simpa using h0

/-- C3 witness at count N = 5 (the spec's five-member scenario): the
traversal yields exactly the ordinals 0..4 and the end marker holds 5. -/
theorem c3_witness :
    ordinals ⟨true, some ((5 : Nat) : Int)⟩ = some (Range.mk ((5 : Nat) : Int)) ∧
    (Range.mk ((5 : Nat) : Int)).seq =
      (List.range 5).map (fun i : Nat => EnumVal.mk (i : Int)) ∧
    (Range.mk ((5 : Nat) : Int)).seq.length = 5 ∧
    (Range.mk ((5 : Nat) : Int)).seq.Nodup ∧
    List.Chain' (fun a b : EnumVal => a.val < b.val) (Range.mk ((5 : Nat) : Int)).seq ∧
    (Range.mk ((5 : Nat) : Int)).seq.head? = some ⟨0⟩ ∧
    (Range.mk ((5 : Nat) : Int)).seq.getLast? = some ⟨((5 : Nat) : Int) - 1⟩ ∧
    (Range.mk ((5 : Nat) : Int)).endIt.deref = EnumVal.mk ((5 : Nat) : Int) ∧
    EnumVal.mk ((5 : Nat) : Int) ∉ (Range.mk ((5 : Nat) : Int)).seq :=
  c3_ordinals_sequence 5 (by norm_num)

/-- C5 witness at count N = 3 with one iterator advanced 7 steps: both
invocations give the same sequence 0,1,2 and the advanced iterator holds
ordinal 7 without affecting it. -/
theorem c5_witness :
    (Range.mk ((3 : Nat) : Int)).seq = (Range.mk ((3 : Nat) : Int)).seq ∧
    (Range.mk ((3 : Nat) : Int)).beginIt.deref = ⟨0⟩ ∧
    ((Range.mk ((3 : Nat) : Int)).beginIt.advance 7).e.val = ((7 : Nat) : Int) ∧
    (Range.mk ((3 : Nat) : Int)).seq =
      (List.range 3).map (fun i : Nat => EnumVal.mk (i : Int)) :=
  c5_ordinals_restartable 3 (by norm_num) 7 (Range.mk ((3 : Nat) : Int))
    (Range.mk ((3 : Nat) : Int)) (ordinals_eq 3 (by norm_num))
    (ordinals_eq 3 (by norm_num))

end Yoga
